import Mathlib

/-!
Verification development for the Telegram-History bot repository.

Shallow embedding of the parts of the code the checked properties are
about, together with proofs (or refutations) of those properties:

* `src/history_map.py` — the bounded in-process map cache of
  `HistoryMap.generate_map_image` (hit path, eviction, size bound) and
  the two event-file loaders.
* `src/message_manager.py` — `save_message_id` and the transport-call
  traces of `delete_message_safe`, `send_messages_batch`, `clean_chat`.
* `src/telegram_queue.py` — the rate-limited request queue (the file
  itself is not part of the sources at hand; its admission rule is
  modelled from the design document, see `startTime`).
* `src/topic_service.py` / `src/content_service.py` — `parse_topics`
  and the `ask_grok` call-site traces.
* `src/handlers.py` — `CommandHandlers.handle_answer`.

Python strings are modelled as `List Char` (`Str` below), machine reals
used as timestamps as `ℚ`, and Python dicts as insertion-ordered
association lists.
-/

abbrev Str := List Char

namespace HistoryMap

/-- A value of `HistoryMap.map_cache`: the generated file path plus the
`time.time()` stamp recorded when the entry was stored
(`history_map.py` line 152). -/
structure CacheEntry where
  path : String
  stamp : ℚ
  deriving DecidableEq, Repr

/-- `HistoryMap.map_cache` as an insertion-ordered association list
(Python dicts preserve insertion order). -/
abbrev MapCache := List (String × CacheEntry)

/-- Python dict key lookup (`cache_key in self.map_cache` /
`self.map_cache[cache_key]`). -/
def lookup : MapCache → String → Option CacheEntry
  | [], _ => none
  | (k, e) :: rest, key => if k = key then some e else lookup rest key

/-- Python dict assignment `self.map_cache[cache_key] = (map_path, time.time())`:
replaces in place when the key is present, appends otherwise. -/
def dictInsert : MapCache → String → CacheEntry → MapCache
  | [], k, v => [(k, v)]
  | (k', v') :: rest, k, v =>
    if k' = k then (k, v) :: rest else (k', v') :: dictInsert rest k v

/-- Python `del self.map_cache[oldest_key]` (line 150). -/
def dictErase : MapCache → String → MapCache
  | [], _ => []
  | (k', v') :: rest, k => if k' = k then rest else (k', v') :: dictErase rest k

/-- Python `min(self.map_cache, key=lambda k: self.map_cache[k][1])`
(line 149): the first entry, in iteration order, whose stored stamp is
minimal (Python's `min` keeps the earliest of tied candidates). -/
def pyMinBy (cache : MapCache) : Option (String × CacheEntry) :=
  cache.foldl
    (fun acc kv =>
      match acc with
      | none => some kv
      | some best => if kv.2.stamp < best.2.stamp then some kv else some best)
    none

/-- The cache-hit path of `generate_map_image` (lines 62-69): if the key
is present, the cached file still exists and the stored stamp is younger
than 1800 seconds, the cached path is returned.  The stored stamp is not
refreshed and the cache is left unchanged. -/
def cacheHit (fileExists : String → Bool) (now : ℚ) (cache : MapCache)
    (key : String) : Option String :=
  match lookup cache key with
  | some e => if fileExists e.path ∧ now - e.stamp < 1800 then some e.path else none
  | none => none

/-- The store path of `generate_map_image` (lines 145-152): when the
cache already holds at least `maxSize` entries, the entry with the
minimal stored stamp is deleted, then the new entry is stored. -/
def cacheStore (maxSize : ℕ) (cache : MapCache) (key : String)
    (e : CacheEntry) : MapCache :=
  let cache' :=
    if maxSize ≤ cache.length then
      match pyMinBy cache with
      | some (oldestKey, _) => dictErase cache oldestKey
      | none => cache
    else cache
  dictInsert cache' key e

/-- `max_cache_size = 10` (`history_map.py` line 22). -/
def maxCacheSize : ℕ := 10

theorem lookup_dictInsert_self (cache : MapCache) (k : String) (e : CacheEntry) :
    lookup (dictInsert cache k e) k = some e := by
  induction cache with
  | nil => simp [dictInsert, lookup]
  | cons kv rest ih =>
    obtain ⟨k', v'⟩ := kv
    by_cases h : k' = k
    · simp [dictInsert, h, lookup]
    · simp [dictInsert, h, lookup, ih]

theorem length_dictInsert_le (cache : MapCache) (k : String) (e : CacheEntry) :
    (dictInsert cache k e).length ≤ cache.length + 1 := by
  induction cache with
  | nil => simp [dictInsert]
  | cons kv rest ih =>
    obtain ⟨k', v'⟩ := kv
    by_cases h : k' = k
    · simp [dictInsert, h]
    · simpa [dictInsert, h] using Nat.succ_le_succ ih

theorem pyMinBy_eq_none (cache : MapCache) :
    pyMinBy cache = none ↔ cache = [] := by
  constructor
  · intro h
    cases cache with
    | nil => rfl
    | cons kv rest =>
      exfalso
      have aux : ∀ (l : List (String × CacheEntry)) (acc : String × CacheEntry),
          l.foldl
            (fun acc kv =>
              match acc with
              | none => some kv
              | some best => if kv.2.stamp < best.2.stamp then some kv else some best)
            (some acc) ≠ none := by
        intro l
        induction l with
        | nil => intro acc h; simp at h
        | cons x xs ih =>
          intro acc
          by_cases hx : x.2.stamp < acc.2.stamp <;> simp [List.foldl, hx, ih]
      exact aux rest kv (by simpa [pyMinBy, List.foldl] using h)
  · intro h; subst h; rfl

theorem pyMinBy_mem_aux (l : List (String × CacheEntry)) :
    ∀ (acc kv : String × CacheEntry),
      l.foldl
        (fun acc kv =>
          match acc with
          | none => some kv
          | some best => if kv.2.stamp < best.2.stamp then some kv else some best)
        (some acc) = some kv → kv = acc ∨ kv ∈ l := by
  induction l with
  | nil => intro acc kv h; simp at h; exact Or.inl h.symm
  | cons x xs ih =>
    intro acc kv h
    by_cases hx : x.2.stamp < acc.2.stamp
    · rcases ih x kv (by simpa [List.foldl, hx] using h) with h' | h'
      · exact Or.inr (by simp [h'])
      · exact Or.inr (by simp [h'])
    · rcases ih acc kv (by simpa [List.foldl, hx] using h) with h' | h'
      · exact Or.inl h'
      · exact Or.inr (by simp [h'])

theorem pyMinBy_mem (cache : MapCache) (kv : String × CacheEntry)
    (h : pyMinBy cache = some kv) : kv ∈ cache := by
  cases cache with
  | nil => simp [pyMinBy] at h
  | cons x xs =>
    rcases pyMinBy_mem_aux xs x kv (by simpa [pyMinBy, List.foldl] using h) with h' | h'
    · simp [h']
    · simp [h']

theorem length_dictErase_of_mem (cache : MapCache) (kv : String × CacheEntry)
    (h : kv ∈ cache) : (dictErase cache kv.1).length = cache.length - 1 := by
  induction cache with
  | nil => simp at h
  | cons x xs ih =>
    obtain ⟨k', v'⟩ := x
    rcases List.mem_cons.mp h with h | h
    · subst h
      simp [dictErase]
    · by_cases hk : k' = kv.1
      · simp [dictErase, hk]
      · have hx : xs ≠ [] := by rintro rfl; simp at h
        have hlen : 1 ≤ xs.length := by
          cases xs with
          | nil => exact absurd rfl hx
          | cons _ _ => simp
        simp only [dictErase, hk, if_false, List.length_cons]
        rw [ih h]
        omega

/-- Core step bound: one `cacheStore` keeps the size within `maxSize`. -/
theorem cacheStore_length_le (maxSize : ℕ) (cache : MapCache) (key : String)
    (e : CacheEntry) (hmax : 1 ≤ maxSize) (hlen : cache.length ≤ maxSize) :
    (cacheStore maxSize cache key e).length ≤ maxSize := by
  unfold cacheStore
  by_cases hfull : maxSize ≤ cache.length
  · have hne : cache ≠ [] := by
      rintro rfl
      simp at hfull
      omega
    have hmin : ∃ kv, pyMinBy cache = some kv := by
      cases h : pyMinBy cache with
      | none => exact absurd ((pyMinBy_eq_none cache).mp h) hne
      | some kv => exact ⟨kv, rfl⟩
    obtain ⟨kv, hkv⟩ := hmin
    have hmem := pyMinBy_mem cache kv hkv
    have herase := length_dictErase_of_mem cache kv hmem
    have h1 : (dictErase cache kv.1).length = cache.length - 1 := herase
    calc (dictInsert (if maxSize ≤ cache.length then
            match pyMinBy cache with
            | some (oldestKey, _) => dictErase cache oldestKey
            | none => cache
          else cache) key e).length
        = (dictInsert (dictErase cache kv.1) key e).length := by
          rw [if_pos hfull, hkv]
      _ ≤ (dictErase cache kv.1).length + 1 := length_dictInsert_le _ _ _
      _ = cache.length - 1 + 1 := by rw [h1]
      _ ≤ maxSize := by omega
  · calc (dictInsert (if maxSize ≤ cache.length then
            match pyMinBy cache with
            | some (oldestKey, _) => dictErase cache oldestKey
            | none => cache
          else cache) key e).length
        = (dictInsert cache key e).length := by rw [if_neg hfull]
      _ ≤ cache.length + 1 := length_dictInsert_le _ _ _
      _ ≤ maxSize := by omega

theorem cacheStore_fold_length_le (puts : List (String × CacheEntry)) :
    ((puts.foldl (fun c p => cacheStore maxCacheSize c p.1 p.2) []).length
      ≤ maxCacheSize) := by
  have aux : ∀ (l : List (String × CacheEntry)) (c : MapCache),
      c.length ≤ maxCacheSize →
      (l.foldl (fun c p => cacheStore maxCacheSize c p.1 p.2) c).length
        ≤ maxCacheSize := by
    intro l
    induction l with
    | nil => intro c hc; simpa using hc
    | cons p ps ih =>
      intro c hc
      exact ih _ (cacheStore_length_le maxCacheSize c p.1 p.2 (by simp [maxCacheSize]) hc)
  exact aux puts [] (by simp)

/-- C5.  The bounded map cache never exceeds its capacity: for every
sequence of stores into `HistoryMap.map_cache` (with
`max_cache_size = 10`), after any prefix of the sequence the cache holds
at most 10 entries — each store first deletes an entry whenever the
cache already holds at least `max_cache_size` entries. -/
theorem map_cache_size_le_max (puts : List (String × CacheEntry)) (n : ℕ) :
    (((puts.take n).foldl (fun c p => cacheStore maxCacheSize c p.1 p.2) []).length
      ≤ maxCacheSize) :=
  cacheStore_fold_length_le (puts.take n)

theorem pyMinBy_min_aux (l : List (String × CacheEntry)) :
    ∀ (acc kv : String × CacheEntry),
      l.foldl
        (fun acc kv =>
          match acc with
          | none => some kv
          | some best => if kv.2.stamp < best.2.stamp then some kv else some best)
        (some acc) = some kv →
      kv.2.stamp ≤ acc.2.stamp ∧ ∀ x ∈ l, kv.2.stamp ≤ x.2.stamp := by
  induction l with
  | nil =>
    intro acc kv h
    simp at h
    subst h
    exact ⟨le_refl _, by simp⟩
  | cons x xs ih =>
    intro acc kv h
    by_cases hx : x.2.stamp < acc.2.stamp
    · obtain ⟨h1, h2⟩ := ih x kv (by simpa [List.foldl, hx] using h)
      refine ⟨le_of_lt (lt_of_le_of_lt h1 hx), ?_⟩
      intro y hy
      rcases List.mem_cons.mp hy with rfl | hy
      · exact h1
      · exact h2 y hy
    · obtain ⟨h1, h2⟩ := ih acc kv (by simpa [List.foldl, hx] using h)
      refine ⟨h1, ?_⟩
      intro y hy
      rcases List.mem_cons.mp hy with rfl | hy
      · exact le_trans h1 (le_of_not_lt hx)
      · exact h2 y hy

theorem pyMinBy_min (cache : MapCache) (kv : String × CacheEntry)
    (h : pyMinBy cache = some kv) : ∀ x ∈ cache, kv.2.stamp ≤ x.2.stamp := by
  cases cache with
  | nil => simp [pyMinBy] at h
  | cons x xs =>
    obtain ⟨h1, h2⟩ := pyMinBy_min_aux xs x kv (by simpa [pyMinBy, List.foldl] using h)
    intro y hy
    rcases List.mem_cons.mp hy with rfl | hy
    · exact h1
    · exact h2 y hy

/-- A concrete cache state: ten entries stored at stamps 1,…,10 (the
state of `map_cache` after ten distinct stores). -/
def cacheTen : MapCache :=
  [("k1", ⟨"p1", 1⟩), ("k2", ⟨"p2", 2⟩), ("k3", ⟨"p3", 3⟩),
   ("k4", ⟨"p4", 4⟩), ("k5", ⟨"p5", 5⟩), ("k6", ⟨"p6", 6⟩),
   ("k7", ⟨"p7", 7⟩), ("k8", ⟨"p8", 8⟩), ("k9", ⟨"p9", 9⟩),
   ("k10", ⟨"p10", 10⟩)]

/-- C1 counterexample.  At time 11 a `Get` of `"k1"` hits (file present,
age 10 s < 1800 s), so under the claimed LRU policy `"k1"` is the
most-recently-used entry and the next insertion should evict `"k2"`.
The code's hit path does not touch the stored stamp (it only reads the
cache), and the store at time 12 evicts `"k1"` — the entry with the
oldest *insertion* stamp — while `"k2"` survives. -/
theorem map_cache_eviction_not_lru :
    cacheHit (fun _ => true) 11 cacheTen "k1" = some "p1" ∧
    lookup (cacheStore maxCacheSize cacheTen "k11" ⟨"p11", 12⟩) "k1" = none ∧
    lookup (cacheStore maxCacheSize cacheTen "k11" ⟨"p11", 12⟩) "k2"
      = some ⟨"p2", 2⟩ := by
  refine ⟨?_, ?_, ?_⟩ <;>
    (norm_num [cacheHit, cacheStore, cacheTen, lookup, pyMinBy, List.foldl,
      dictErase, dictInsert, maxCacheSize] <;> decide)

/-- C1 amended.  When a store happens while `map_cache` holds at least
`max_cache_size` entries, the evicted entry is the one whose *stored*
stamp — the `time.time()` recorded at insertion, never refreshed by the
hit path (`cacheHit` returns a path and leaves the cache unmodified) —
is minimal among all entries. -/
theorem map_cache_evicts_min_stored_stamp (cache : MapCache) (key : String)
    (e : CacheEntry) (hfull : maxCacheSize ≤ cache.length) :
    ∃ kv, pyMinBy cache = some kv ∧ kv ∈ cache ∧
      (∀ kv' ∈ cache, kv.2.stamp ≤ kv'.2.stamp) ∧
      cacheStore maxCacheSize cache key e = dictInsert (dictErase cache kv.1) key e := by
  have hne : cache ≠ [] := by
    rintro rfl
    simp [maxCacheSize] at hfull
  obtain ⟨kv, hkv⟩ : ∃ kv, pyMinBy cache = some kv := by
    cases h : pyMinBy cache with
    | none => exact absurd ((pyMinBy_eq_none cache).mp h) hne
    | some kv => exact ⟨kv, rfl⟩
  refine ⟨kv, hkv, pyMinBy_mem cache kv hkv, pyMinBy_min cache kv hkv, ?_⟩
  unfold cacheStore
  rw [if_pos hfull, hkv]

/-- Witness for `map_cache_evicts_min_stored_stamp` at the concrete
ten-entry cache. -/
theorem map_cache_evicts_min_stored_stamp_witness :
    ∃ kv, pyMinBy cacheTen = some kv ∧ kv ∈ cacheTen ∧
      (∀ kv' ∈ cacheTen, kv.2.stamp ≤ kv'.2.stamp) ∧
      cacheStore maxCacheSize cacheTen "k11" ⟨"p11", 12⟩
        = dictInsert (dictErase cacheTen kv.1) "k11" ⟨"p11", 12⟩ :=
  map_cache_evicts_min_stored_stamp cacheTen "k11" ⟨"p11", 12⟩ (by decide)

/-- C7.  Cache round-trip: immediately after `generate_map_image` stores
`(map_path, timestamp)` under `cache_key`, a repeated call computing the
same key — with the file still present and the entry younger than the
30-minute bound — takes the hit path and returns the stored path. -/
theorem map_cache_put_get_roundtrip (fileExists : String → Bool) (now : ℚ)
    (cache : MapCache) (key : String) (e : CacheEntry)
    (hfs : fileExists e.path = true) (hage : now - e.stamp < 1800) :
    cacheHit fileExists now (cacheStore maxCacheSize cache key e) key
      = some e.path := by
  unfold cacheStore cacheHit
  rw [lookup_dictInsert_self]
  simp [hfs, hage]

/-- Witness for `map_cache_put_get_roundtrip`: store into the empty
cache and read straight back. -/
theorem map_cache_put_get_roundtrip_witness :
    cacheHit (fun _ => true) 5 (cacheStore maxCacheSize [] "k" ⟨"p", 4⟩) "k"
      = some "p" :=
  map_cache_put_get_roundtrip (fun _ => true) 5 [] "k" ⟨"p", 4⟩ rfl (by norm_num)

/-- Outcome of opening and JSON-parsing the events file: the file may be
absent (`os.path.exists` false), present but unparseable (`json.load`
raises), or parsed successfully. -/
inductive FileRead (α : Type) where
  | missing : FileRead α
  | corrupt : FileRead α
  | ok : α → FileRead α
  deriving DecidableEq, Repr

/-- The parsed shape of `historical_events.json` used by the first
`HistoryMap` class: a dict with `"events"` and `"categories"` lists
(element contents are opaque to the loader). -/
structure EventsData where
  events : List String
  categories : List String
  deriving DecidableEq, Repr

/-- The default `{"events": [], "categories": []}` returned by
`_load_events_data` when the file is absent or unreadable. -/
def emptyEventsData : EventsData := ⟨[], []⟩

/-- `HistoryMap._load_events_data` (`history_map.py` lines 25-34): on a
missing file the default is returned directly; any exception while
opening or parsing is caught, logged and the default returned. -/
def load_events_data : FileRead EventsData → EventsData
  | .missing => emptyEventsData
  | .corrupt => emptyEventsData
  | .ok d => d

/-- Lazy-loader state of the second `HistoryMap` class:
`self.events` together with the `self._events_loaded` flag. -/
structure LazyEventsState (α : Type) where
  events : List α
  eventsLoaded : Bool
  deriving DecidableEq, Repr

/-- `HistoryMap._load_events` (`history_map.py` lines 369-384): returns
the cached events when already loaded; otherwise reads
`historical_events.json`, and on any exception logs it, stores `[]` and
marks the load done.  Returns the events list and the new state. -/
def load_events {α : Type} (st : LazyEventsState α) (file : FileRead (List α)) :
    List α × LazyEventsState α :=
  if st.eventsLoaded then (st.events, st)
  else
    match file with
    | .ok d => (d, ⟨d, true⟩)
    | .missing => ([], ⟨[], true⟩)
    | .corrupt => ([], ⟨[], true⟩)

/-- C6.  Loading the persisted events file is never fatal: both loaders
are total, and whenever the file is missing or corrupt each returns its
empty default (`{"events": [], "categories": []}` for
`_load_events_data`, `[]` for `_load_events`) instead of propagating an
exception. -/
theorem load_events_defaults_on_failure {α : Type} (r : FileRead EventsData)
    (r2 : FileRead (List α)) (st : LazyEventsState α)
    (h1 : r = .missing ∨ r = .corrupt) (h2 : r2 = .missing ∨ r2 = .corrupt)
    (h3 : st.eventsLoaded = false) :
    load_events_data r = emptyEventsData ∧
    load_events st r2 = ([], ⟨[], true⟩) := by
  obtain rfl | rfl := h1 <;> obtain rfl | rfl := h2 <;>
    simp [load_events_data, load_events, h3]

/-- Witness for `load_events_defaults_on_failure`: a missing file for
the first loader, a corrupt one for the second. -/
theorem load_events_defaults_on_failure_witness :
    load_events_data .missing = emptyEventsData ∧
    load_events (⟨([] : List ℕ), false⟩ : LazyEventsState ℕ) .corrupt
      = ([], ⟨[], true⟩) :=
  load_events_defaults_on_failure .missing .corrupt ⟨[], false⟩
    (Or.inl rfl) (Or.inr rfl) rfl

end HistoryMap

namespace MessageManager

/-- `MessageManager.save_message_id` (`message_manager.py` lines 17-40)
acting on `context.user_data['message_ids']`: append the new ID, then,
when more than 50 IDs are stored, keep only the last 50 (`[-50:]`).
(The `if not context.user_data.get('message_ids')` initialization is the
identity here: a missing key is the empty list.) -/
def save_message_id (ids : List ℕ) (messageId : ℕ) : List ℕ :=
  let ids' := ids ++ [messageId]
  if 50 < ids'.length then ids'.drop (ids'.length - 50) else ids'

theorem save_message_id_fold (l : List ℕ) :
    l.foldl save_message_id [] = l.drop (l.length - 50) := by
  induction l using List.reverseRecOn with
  | nil => rfl
  | append_singleton l m ih =>
    rw [List.foldl_append, List.foldl_cons, List.foldl_nil, ih]
    unfold save_message_id
    by_cases h : l.length + 1 ≤ 50
    · have h0 : l.length - 50 = 0 := by omega
      have h1 : (l.length + 1) - 50 = 0 := by omega
      simp only [h0, List.drop_zero, List.length_append, List.length_cons,
        List.length_nil]
      rw [if_neg (by omega)]
      simp [h1]
    · have hlen : 50 ≤ l.length := by omega
      have hdl : (l.drop (l.length - 50)).length = 50 := by
        rw [List.length_drop]; omega
      have hcond : 50 < (l.drop (l.length - 50) ++ [m]).length := by
        rw [List.length_append, hdl]; simp
      rw [if_pos hcond]
      have hd1 : (l.drop (l.length - 50) ++ [m]).length - 50 = 1 := by
        rw [List.length_append, hdl]; simp
      rw [hd1]
      have hj' : (l ++ [m]).length - 50 = l.length - 49 := by
        rw [List.length_append]; simp only [List.length_cons, List.length_nil]; omega
      rw [hj']
      have h49 : l.length - 49 ≤ l.length := by omega
      rw [List.drop_append_of_le_length (by rw [hdl]; omega),
        List.drop_append_of_le_length h49, List.drop_drop]
      congr 2
      omega

/-- C8.  After every call to `save_message_id`, the per-user
`message_ids` list has length at most 50 and is exactly the suffix of
the IDs saved so far, in saving order — in particular the just-saved ID
is its last element. -/
theorem save_message_id_keeps_last_fifty (ms : List ℕ) (m : ℕ) :
    ((ms ++ [m]).foldl save_message_id []).length ≤ 50 ∧
    (ms ++ [m]).foldl save_message_id []
      = (ms ++ [m]).drop ((ms ++ [m]).length - 50) ∧
    ((ms ++ [m]).foldl save_message_id []).getLast? = some m := by
  have hfold := save_message_id_fold (ms ++ [m])
  refine ⟨?_, hfold, ?_⟩
  · rw [hfold, List.length_drop]
    omega
  · rw [hfold]
    have hj : (ms ++ [m]).length - 50 ≤ ms.length := by
      rw [List.length_append]; simp only [List.length_cons, List.length_nil]; omega
    rw [List.drop_append_of_le_length hj]
    exact List.getLast?_concat _

end MessageManager

namespace TelegramQueue

/-- Modelled from the spec: `src/telegram_queue.py` (the
`TelegramRequestQueue` that `MessageManager.__init__` constructs with
`max_requests_per_second = 25`) is not among the sources at hand, so its
admission rule is taken from the design document §4.2: a single worker
owns a ring buffer of the timestamps of the last `R` execution starts;
before starting the next queued operation it computes
`wait = max(0, (oldest_timestamp_in_buffer + 1s) - now)` when the buffer
is full, sleeps `wait`, then executes.

`startTime R now0 d n` is the start time of the `n`-th operation of a
backlog processed by that worker: `now0` is the clock when the worker
picks the first operation, `d k` is the (nonnegative) execution duration
of operation `k`, so the clock when the worker picks operation `n + 1`
is `startTime n + d n`.  When at least `R` operations have already been
started, the buffer is full and its oldest entry is the start of
operation `n + 1 - R`. -/
def startTime (R : ℕ) (now0 : ℚ) (d : ℕ → ℚ) : ℕ → ℚ
  | 0 => now0
  | n + 1 =>
    let now := startTime R now0 d n + d n
    if h : 1 ≤ R ∧ R ≤ n + 1 then
      max now (startTime R now0 d (n + 1 - R) + 1)
    else now
  termination_by n => n
  decreasing_by
  · omega
  · omega

theorem startTime_le_succ (R : ℕ) (now0 : ℚ) (d : ℕ → ℚ)
    (hd : ∀ k, 0 ≤ d k) (n : ℕ) :
    startTime R now0 d n ≤ startTime R now0 d (n + 1) := by
  rw [startTime]
  have hnow : startTime R now0 d n ≤ startTime R now0 d n + d n := by
    have := hd n
    linarith
  by_cases h : 1 ≤ R ∧ R ≤ n + 1
  · rw [dif_pos h]
    exact le_trans hnow (le_max_left _ _)
  · rw [dif_neg h]
    exact hnow

theorem startTime_mono (R : ℕ) (now0 : ℚ) (d : ℕ → ℚ)
    (hd : ∀ k, 0 ≤ d k) {i j : ℕ} (hij : i ≤ j) :
    startTime R now0 d i ≤ startTime R now0 d j := by
  induction j with
  | zero => simp_all
  | succ j ih =>
    rcases Nat.lt_or_ge i (j + 1) with h | h
    · exact le_trans (ih (by omega)) (startTime_le_succ R now0 d hd j)
    · have : i = j + 1 := by omega
      subst this
      exact le_refl _

theorem startTime_spacing (R : ℕ) (now0 : ℚ) (d : ℕ → ℚ)
    (hR : 1 ≤ R) (n : ℕ) :
    startTime R now0 d n + 1 ≤ startTime R now0 d (n + R) := by
  have hR' : R ≤ n + R := by omega
  obtain ⟨m, hm⟩ : ∃ m, n + R = m + 1 := ⟨n + R - 1, by omega⟩
  rw [hm, startTime, dif_pos ⟨hR, by omega⟩]
  have : m + 1 - R = n := by omega
  rw [this]
  exact le_max_right _ _

/-- C2.  Sliding-window rate limit: for every backlog of operations
(arbitrary nonnegative execution durations `d`, arbitrary initial clock
`now0`) processed by a dispatcher with rate limit `R ≥ 1`, every
trailing 1-second window `(w, w + 1]` contains at most `R` execution
starts. -/
theorem telegram_queue_rate_limit_window (R : ℕ) (now0 : ℚ) (d : ℕ → ℚ)
    (hR : 1 ≤ R) (hd : ∀ k, 0 ≤ d k) (N : ℕ) (w : ℚ) :
    ((Finset.range N).filter
      (fun i => w < startTime R now0 d i ∧ startTime R now0 d i ≤ w + 1)).card
      ≤ R := by
  by_contra hcard
  push_neg at hcard
  set S := (Finset.range N).filter
    (fun i => w < startTime R now0 d i ∧ startTime R now0 d i ≤ w + 1) with hS
  have hpos : 0 < S.card := by omega
  have hne : S.Nonempty := Finset.card_pos.mp hpos
  obtain ⟨i, hiS, hmin⟩ : ∃ i ∈ S, ∀ x ∈ S, i ≤ x :=
    ⟨S.min' hne, S.min'_mem hne, fun x hx => S.min'_le x hx⟩
  obtain ⟨j, hjS, hmax⟩ : ∃ j ∈ S, ∀ x ∈ S, x ≤ j :=
    ⟨S.max' hne, S.max'_mem hne, fun x hx => S.le_max' x hx⟩
  have hsub : S ⊆ Finset.Icc i j := by
    intro x hx
    exact Finset.mem_Icc.mpr ⟨hmin x hx, hmax x hx⟩
  have hcard2 : S.card ≤ j + 1 - i := by
    rw [← Nat.card_Icc i j]
    exact Finset.card_le_card hsub
  have hij : i + R ≤ j := by omega
  have h1 : startTime R now0 d i + 1 ≤ startTime R now0 d (i + R) :=
    startTime_spacing R now0 d hR i
  have h2 : startTime R now0 d (i + R) ≤ startTime R now0 d j :=
    startTime_mono R now0 d hd hij
  have hwi : w < startTime R now0 d i := (Finset.mem_filter.mp hiS).2.1
  have hwj : startTime R now0 d j ≤ w + 1 := (Finset.mem_filter.mp hjS).2.2
  linarith

/-- Witness for `telegram_queue_rate_limit_window`: the configured rate
`R = 25`, a backlog of 30 instantaneous operations, the window ending at
time 1. -/
theorem telegram_queue_rate_limit_window_witness :
    ((Finset.range 30).filter
      (fun i => 0 < startTime 25 0 (fun _ => 0) i ∧
        startTime 25 0 (fun _ => 0) i ≤ 0 + 1)).card ≤ 25 :=
  telegram_queue_rate_limit_window 25 0 (fun _ => 0) (by norm_num)
    (fun _ => le_refl 0) 30 0

end TelegramQueue

namespace MessageManager

/-- A Telegram Bot API method invoked by `MessageManager`. -/
inductive TgOp where
  | sendMessage
  | editMessageText
  | deleteMessage
  | getUpdates
  deriving DecidableEq, Repr

/-- One transport call emitted by a `MessageManager` method:
`viaQueue` records whether the call goes through
`self.request_queue.enqueue`, `statusRelated` whether it operates on the
progress/status message `clean_chat` itself sent. -/
structure TgCall where
  op : TgOp
  viaQueue : Bool
  statusRelated : Bool
  deriving DecidableEq, Repr

/-- Python `[message[i:i+4000] for i in range(0, len(message), 4000)]`
(`message_manager.py` line 100). -/
def chunks4000 : List Char → List (List Char)
  | [] => []
  | c :: rest => ((c :: rest).take 4000) :: chunks4000 (rest.drop 3999)
  termination_by l => l.length
  decreasing_by simp [List.length_drop]; omega

/-- Python `[message_ids[i:i+100] for i in range(0, len(message_ids), 100)]`
(`message_manager.py` line 228). -/
def chunks100 : List ℕ → List (List ℕ)
  | [] => []
  | c :: rest => ((c :: rest).take 100) :: chunks100 (rest.drop 99)
  termination_by l => l.length
  decreasing_by simp [List.length_drop]; omega

/-- Transport calls of `MessageManager.delete_message_safe` (lines
59-76): a single `bot.delete_message` submitted through
`request_queue.enqueue`. -/
def deleteMessageSafeTrace : List TgCall :=
  [⟨.deleteMessage, true, false⟩]

/-- Transport calls of `MessageManager.send_messages_batch` (lines
78-130): each message longer than 4000 characters is split into
4000-character chunks; each chunk (or the whole short message) is sent
with `context.bot.send_message` submitted through
`request_queue.enqueue`. -/
def sendMessagesBatchTrace (messages : List (List Char)) : List TgCall :=
  (messages.map (fun m =>
    if 4000 < m.length then
      (chunks4000 m).map (fun _ => (⟨.sendMessage, true, false⟩ : TgCall))
    else [⟨.sendMessage, true, false⟩])).flatten

/-- Transport calls of `MessageManager.clean_chat` (lines 144-299) on
the path where every direct bot call succeeds: the status message is
sent and edited with direct `bot.send_message`/`bot.edit_message_text`
calls; each collected message ID is deleted through
`request_queue.enqueue(delete_single)`; the status message is deleted
directly and the final summary is sent directly.  When no saved IDs
exist, `bot.get_updates` is tried directly (yielding nothing here) and
the "nothing found" notice is sent directly. -/
def cleanChatTrace (savedIds : List ℕ) : List TgCall :=
  [⟨.sendMessage, false, true⟩] ++
  [⟨.editMessageText, false, true⟩] ++
  (if savedIds = [] then
    [⟨.getUpdates, false, false⟩,
     ⟨.editMessageText, false, true⟩,
     ⟨.sendMessage, false, false⟩]
  else
    ((chunks100 savedIds).map (fun chunk =>
      (⟨.editMessageText, false, true⟩ : TgCall) ::
        chunk.map (fun _ => (⟨.deleteMessage, true, false⟩ : TgCall)))).flatten ++
    [⟨.deleteMessage, false, true⟩] ++
    [⟨.sendMessage, false, false⟩])

/-- C3 counterexample.  `clean_chat` performs a direct (unqueued)
`bot.send_message` — its very first transport call — so it is false that
every messaging-transport operation is submitted through
`request_queue.enqueue`. -/
theorem clean_chat_bypasses_queue :
    ∃ c ∈ cleanChatTrace [1], c.viaQueue = false := by
  refine ⟨⟨.sendMessage, false, true⟩, ?_, rfl⟩
  simp [cleanChatTrace]

/-- C3 amended.  Queue discipline as the code implements it: every
transport call of `send_messages_batch` and `delete_message_safe` goes
through `request_queue.enqueue`, and inside `clean_chat` every deletion
of a collected chat message goes through the queue, while the
status-message bookkeeping (initial send, progress edits, final
deletion) and the summary sends are direct `bot` calls. -/
theorem transport_queue_discipline (messages : List (List Char))
    (savedIds : List ℕ) :
    ((sendMessagesBatchTrace messages).all fun c => c.viaQueue) = true ∧
    (deleteMessageSafeTrace.all fun c => c.viaQueue) = true ∧
    ((cleanChatTrace savedIds).all fun c =>
      !decide (c.op = TgOp.deleteMessage) || c.statusRelated || c.viaQueue)
      = true := by
  refine ⟨?_, by decide, ?_⟩
  · rw [List.all_eq_true]
    intro c hc
    simp only [sendMessagesBatchTrace, List.mem_flatten, List.mem_map] at hc
    obtain ⟨l, ⟨m, _, rfl⟩, hcl⟩ := hc
    by_cases h : 4000 < m.length
    · rw [if_pos h] at hcl
      simp only [List.mem_map] at hcl
      obtain ⟨_, _, rfl⟩ := hcl
      rfl
    · rw [if_neg h] at hcl
      simp only [List.mem_singleton] at hcl
      subst hcl
      rfl
  · rw [List.all_eq_true]
    intro c hc
    simp only [cleanChatTrace, List.append_assoc, List.mem_append,
      List.mem_singleton] at hc
    rcases hc with rfl | rfl | hc
    · rfl
    · rfl
    by_cases hids : savedIds = []
    · rw [if_pos hids] at hc
      simp only [List.mem_cons, List.not_mem_nil, or_false] at hc
      rcases hc with rfl | rfl | rfl <;> rfl
    · rw [if_neg hids] at hc
      simp only [List.mem_append, List.mem_flatten, List.mem_map,
        List.mem_singleton] at hc
      rcases hc with ⟨l, ⟨chunk, _, rfl⟩, hcl⟩ | rfl | rfl
      · rcases List.mem_cons.mp hcl with rfl | hcl
        · rfl
        · simp only [List.mem_map] at hcl
          obtain ⟨_, _, rfl⟩ := hcl
          rfl
      · rfl
      · rfl

end MessageManager

namespace AskGrok

/-- One `ask_grok` request as issued at a call site: whether the call
site lets the response be served from / stored into the API cache, and
the `max_tokens` argument when the call site passes one. -/
structure GrokCall where
  useCache : Bool
  maxTokens : Option ℕ
  deriving DecidableEq, Repr

/-- `TopicService.generate_topics_list` (`topic_service.py` lines
40-54): one `ask_grok(prompt, use_cache=use_cache)` call. -/
def generateTopicsListTrace (useCache : Bool) : List GrokCall :=
  [⟨useCache, none⟩]

/-- `TopicService.generate_new_topics_list` (lines 56-71): one
`ask_grok(prompt, use_cache=False)` call — caching is disabled on
purpose to obtain genuinely new topics. -/
def generateNewTopicsListTrace : List GrokCall :=
  [⟨false, none⟩]

/-- `TopicService.get_topic_info` (lines 190-260): one topic-context
request `ask_grok(context_prompt, use_cache=False)`, then for each of
the five standard chapters between one and three attempts of
`ask_grok(full_prompt, use_cache=False)` (retrying while the response is
shorter than 1500 characters, at most three times).  `attempts i` is the
attempt count of chapter `i`, clamped to `[1, 3]`. -/
def topicGetTopicInfoTrace (attempts : ℕ → ℕ) : List GrokCall :=
  ⟨false, none⟩ ::
    ((List.range 5).map (fun i =>
      List.replicate (min 3 (max 1 (attempts i))) (⟨false, none⟩ : GrokCall))).flatten

/-- `ContentService.get_topic_info` (`content_service.py` lines 26-64):
five chapter prompts, each `ask_grok(prompt, max_tokens=500)` with no
`use_cache` argument.  Modelled from the spec for the default:
`src/api_client.py` is not among the sources, and the design document
has the Content Generator invoked through the cache-backed
`GetOrCompute`, so the omitted `use_cache` defaults to `True`. -/
def contentGetTopicInfoTrace : List GrokCall :=
  List.replicate 5 ⟨true, some 500⟩

/-- C4 counterexample.  `generate_new_topics_list` passes
`use_cache=False`, so it is false that every content-generation call is
issued through the cache-backed path. -/
theorem new_topics_list_bypasses_cache :
    ∃ c ∈ generateNewTopicsListTrace, c.useCache = false := by
  refine ⟨⟨false, none⟩, ?_, rfl⟩
  simp [generateNewTopicsListTrace]

/-- C4 amended.  Cache usage as the call sites implement it:
`ContentService.get_topic_info` issues its five chapter requests with
the cache enabled (albeit from a thread pool), and
`generate_topics_list` forwards its `use_cache` flag unchanged, while
`generate_new_topics_list` and every request of
`TopicService.get_topic_info` (topic context and all chapter attempts)
deliberately bypass the cache with `use_cache=False`. -/
theorem ask_grok_call_site_cache_flags (u : Bool) (attempts : ℕ → ℕ) :
    (contentGetTopicInfoTrace.all fun c => c.useCache) = true ∧
    ((generateTopicsListTrace u).all fun c => c.useCache == u) = true ∧
    (generateNewTopicsListTrace.all fun c => !c.useCache) = true ∧
    ((topicGetTopicInfoTrace attempts).all fun c => !c.useCache) = true := by
  refine ⟨by decide, by cases u <;> decide, by decide, ?_⟩
  rw [List.all_eq_true]
  intro c hc
  rcases List.mem_cons.mp hc with rfl | hc
  · rfl
  · simp only [List.mem_flatten, List.mem_map, topicGetTopicInfoTrace] at hc
    obtain ⟨l, ⟨i, _, rfl⟩, hcl⟩ := hc
    rw [List.eq_of_mem_replicate hcl]
    rfl

end AskGrok

namespace Py

/-- ASCII whitespace as recognized by Python's `str.strip` /
regex `\s` (the embedding restricts Unicode whitespace to ASCII). -/
def pyIsSpace (c : Char) : Bool :=
  c == ' ' || c == '\t' || c == '\n' || c == '\r' || c == '\x0b' || c == '\x0c'

/-- Python `str.strip()`: drop whitespace from both ends. -/
def pyStrip (s : Str) : Str :=
  ((s.dropWhile pyIsSpace).reverse.dropWhile pyIsSpace).reverse

/-- Python `str.isdigit()` (restricted to ASCII decimal digits):
nonempty and all digits. -/
def pyIsDigitStr (s : Str) : Bool :=
  !s.isEmpty && s.all Char.isDigit

/-- Python `int()` on a string of decimal digits. -/
def digitsToNat (s : Str) : ℕ :=
  s.foldl (fun acc c => 10 * acc + (c.toNat - 48)) 0

end Py

namespace CommandHandlers

/-- Conversation states from `src/config.py`:
`TOPIC, CHOOSE_TOPIC, TEST, ANSWER, CONVERSATION = range(5)`. -/
def TOPIC : ℕ := 0

/-- `ANSWER` state constant from `src/config.py`. -/
def ANSWER : ℕ := 3

/-- A Python runtime exception that can escape `handle_answer`. -/
inductive PyExc where
  | attributeError
  deriving DecidableEq, Repr

/-- The methods `src/message_manager.py` defines on `MessageManager`
(`clear_chat_history` is not among them; `delete_chat_history` is only
an alias of `clean_chat`). -/
def messageManagerMethods : List String :=
  ["__init__", "save_message_id", "save_active_message_id",
   "delete_message_safe", "send_messages_batch", "clean_chat",
   "delete_chat_history", "__del__"]

/-- The quiz-related fields of `context.user_data` that
`handle_answer` reads or writes. -/
structure QuizData where
  questions : List Str
  originalQuestions : List Str
  displayQuestions : List Str
  currentQuestion : ℕ
  score : ℕ
  messageIds : List ℕ
  deriving DecidableEq, Repr

/-- The body of `CommandHandlers.handle_answer` after the
`clear_chat_history` call (`handlers.py` lines 1018-1042): strip the
message text; with no questions or an out-of-range index, report the
error and return `TOPIC`; with input that is not a digit string in 1..4,
reply with a warning (whose message ID `sentMsgId` is saved through
`save_message_id`) and return `ANSWER` leaving the quiz fields
untouched; otherwise continue with the answer-checking flow `rest`
(which involves `TestService.parse_correct_answer`, outside this
embedding). -/
def handle_answer_body (rest : Str → QuizData → ℕ × QuizData)
    (text : Str) (d : QuizData) (sentMsgId : ℕ) : ℕ × QuizData :=
  let ua := Py.pyStrip text
  if d.questions.isEmpty || decide (d.questions.length ≤ d.currentQuestion) then
    (TOPIC, d)
  else if !Py.pyIsDigitStr ua || decide (Py.digitsToNat ua < 1)
      || decide (4 < Py.digitsToNat ua) then
    (ANSWER, { d with messageIds := MessageManager.save_message_id d.messageIds sentMsgId })
  else
    rest ua d

/-- `CommandHandlers.handle_answer` (`handlers.py` lines 1001-1091) as
the code stands: its first action
`self.message_manager.clear_chat_history(update, context)` (line 1016)
looks up an attribute that `MessageManager` does not define, so every
call raises `AttributeError` before any of the quiz logic runs. -/
def handle_answer (rest : Str → QuizData → ℕ × QuizData)
    (text : Str) (d : QuizData) (sentMsgId : ℕ) : Except PyExc (ℕ × QuizData) :=
  if messageManagerMethods.contains "clear_chat_history" then
    .ok (handle_answer_body rest text d sentMsgId)
  else .error .attributeError

/-- C9.  Evaluating `handle_answer` at the failing input — an active
quiz (one question, index 0) and the invalid answer text `"abc"` — does
not return the `ANSWER` state: the undefined-attribute call
`self.message_manager.clear_chat_history` raises `AttributeError` before
the validation branch (lines 1035-1042) is ever reached. -/
theorem handle_answer_raises_attribute_error :
    handle_answer (fun _ d => (ANSWER, d)) ['a', 'b', 'c']
      ⟨[['q', '1']], [['q', '1']], [['q', '1']], 0, 0, []⟩ 77
      = .error .attributeError := by
  rfl

/-- Supporting fact for C9: the validation branch itself, once reached,
behaves exactly as the claim states — invalid input yields the `ANSWER`
state and leaves `questions`, `original_questions`, `display_questions`,
`current_question` and `score` unchanged (only the warning's message ID
is appended to `message_ids`). -/
theorem handle_answer_body_invalid_input (rest : Str → QuizData → ℕ × QuizData)
    (text : Str) (d : QuizData) (sentMsgId : ℕ)
    (hq : (d.questions.isEmpty
      || decide (d.questions.length ≤ d.currentQuestion)) = false)
    (hinv : (!Py.pyIsDigitStr (Py.pyStrip text)
      || decide (Py.digitsToNat (Py.pyStrip text) < 1)
      || decide (4 < Py.digitsToNat (Py.pyStrip text))) = true) :
    handle_answer_body rest text d sentMsgId
      = (ANSWER,
          { d with messageIds := MessageManager.save_message_id d.messageIds sentMsgId }) := by
  unfold handle_answer_body
  simp only [hq, hinv, Bool.false_eq_true, if_false, if_true]

end CommandHandlers

namespace TopicService

/-- Python `str.splitlines()` restricted to the `\n` separator: no
trailing empty line for a text ending in `\n`, `""` yields `[]`. -/
def splitLines : Str → List Str
  | [] => []
  | c :: rest =>
    if c = '\n' then [] :: splitLines rest
    else
      match splitLines rest with
      | [] => [[c]]
      | l :: ls => (c :: l) :: ls

/-- The regex match `re.match(r'^\s*(\d+)[\.\)]\s+(.*?)$', line)`
(`topic_service.py` line 88), ASCII-restricted: optional leading
whitespace, one or more digits, a dot or closing parenthesis, at least
one whitespace character (consumed greedily), then the rest of the line.
Returns the digit group and the rest. -/
def parseNumbered (line : Str) : Option (Str × Str) :=
  let s := line.dropWhile Py.pyIsSpace
  let digits := s.takeWhile Char.isDigit
  let s' := s.dropWhile Char.isDigit
  if digits.isEmpty then none
  else
    match s' with
    | [] => none
    | c :: rest =>
      if c = '.' ∨ c = ')' then
        if (rest.takeWhile Py.pyIsSpace).isEmpty then none
        else some (digits, rest.dropWhile Py.pyIsSpace)
      else none

/-- The entry built for a regex match:
`topics.append(f"{number}. {topic.strip()}")` (line 92). -/
def numberedEntry (d r : Str) : Str :=
  d ++ '.' :: ' ' :: Py.pyStrip r

/-- The numbered-entry pass over the lines (lines 86-92). -/
def numberedEntries (lines : List Str) : List Str :=
  lines.filterMap (fun l => (parseNumbered l).map (fun p => numberedEntry p.1 p.2))

/-- Python `line.startswith(pat)` (pattern is the first argument). -/
def strHasLead : Str → Str → Bool
  | [], _ => true
  | _ :: _, [] => false
  | p :: ps, c :: cs => p == c && strHasLead ps cs

/-- The fallback pass (lines 95-99), used only when no line matched the
regex: keep each line whose stripped text is nonempty and which does not
start with `#` or `**`, contributing its stripped text. -/
def fallbackEntries (lines : List Str) : List Str :=
  (lines.filter (fun l =>
    !(Py.pyStrip l).isEmpty && !strHasLead ['#'] l
      && !strHasLead ['*', '*'] l)).map Py.pyStrip

/-- Python `str.lower()` restricted to ASCII letters. -/
def pyCharLower : Char → Char
  | 'A' => 'a' | 'B' => 'b' | 'C' => 'c' | 'D' => 'd' | 'E' => 'e' | 'F' => 'f'
  | 'G' => 'g' | 'H' => 'h' | 'I' => 'i' | 'J' => 'j' | 'K' => 'k' | 'L' => 'l'
  | 'M' => 'm' | 'N' => 'n' | 'O' => 'o' | 'P' => 'p' | 'Q' => 'q' | 'R' => 'r'
  | 'S' => 's' | 'T' => 't' | 'U' => 'u' | 'V' => 'v' | 'W' => 'w' | 'X' => 'x'
  | 'Y' => 'y' | 'Z' => 'z'
  | c => c

/-- `str.lower()` over a whole string. -/
def strLower (s : Str) : Str := s.map pyCharLower

/-- `topic.split('. ', 1)[1] if '. ' in topic else topic` resolved to
its two cases: the remainder after the first `". "` occurrence, when
there is one. -/
def afterDotSpace : Str → Option Str
  | [] => none
  | c :: rest =>
    if c = '.' ∧ rest.head? = some ' ' then some rest.tail
    else afterDotSpace rest

/-- The dedup key of lines 105-108: the entry text after its number
prefix (= after the first `". "` occurrence, if any), lowercased. -/
def dedupKey (topic : Str) : Str :=
  match afterDotSpace topic with
  | some t => strLower t
  | none => strLower topic

/-- The dedup filter of lines 101-113: keep an entry when its key has
not been seen yet; the first occurrence wins and order is preserved. -/
def dedupTopics (seen : List Str) : List Str → List Str
  | [] => []
  | t :: ts =>
    if dedupKey t ∈ seen then dedupTopics seen ts
    else t :: dedupTopics (dedupKey t :: seen) ts

/-- The pre-dedup topics list of `parse_topics` (lines 83-99). -/
def rawTopics (text : Str) : List Str :=
  let lines := splitLines text
  let topics := numberedEntries lines
  if topics.isEmpty then fallbackEntries lines else topics

/-- `TopicService.parse_topics` (`topic_service.py` lines 73-115). -/
def parse_topics (text : Str) : List Str :=
  dedupTopics [] (rawTopics text)

/-- The claim's notion of an entry's topic text: the entry with a
leading `"N. "` number label (one or more digits, then dot, then space)
removed. -/
def dropNumberLabel (s : Str) : Str :=
  let digits := s.takeWhile Char.isDigit
  let rest := s.dropWhile Char.isDigit
  if !digits.isEmpty && strHasLead ['.', ' '] rest then rest.drop 2 else s

/-- The claim's comparison key: topic text without the number label,
compared case-insensitively. -/
def claimKey (s : Str) : Str := strLower (dropNumberLabel s)

theorem takeWhile_append_done {α : Type} (p : α → Bool) (d : List α) (x : α)
    (rs : List α) (hall : ∀ c ∈ d, p c = true) (hx : p x = false) :
    (d ++ x :: rs).takeWhile p = d ∧ (d ++ x :: rs).dropWhile p = x :: rs := by
  induction d with
  | nil =>
    simp only [List.nil_append]
    exact ⟨List.takeWhile_cons_of_neg (by simp [hx]),
      List.dropWhile_cons_of_neg (by simp [hx])⟩
  | cons c d' ih =>
    have hc : p c = true := hall c (by simp)
    obtain ⟨h1, h2⟩ := ih (fun c hc' => hall c (by simp [hc']))
    constructor
    · rw [List.cons_append, List.takeWhile_cons_of_pos hc, h1]
    · rw [List.cons_append, List.dropWhile_cons_of_pos hc, h2]

theorem isDigit_ne_dot {c : Char} (h : c.isDigit = true) : c ≠ '.' := by
  intro hc
  subst hc
  exact absurd h (by decide)

theorem afterDotSpace_digits (d r : Str) (hall : ∀ c ∈ d, c.isDigit = true) :
    afterDotSpace (d ++ '.' :: ' ' :: r) = some r := by
  induction d with
  | nil =>
    simp [afterDotSpace]
  | cons c d' ih =>
    have hc : c ≠ '.' := isDigit_ne_dot (hall c (by simp))
    rw [List.cons_append, afterDotSpace, if_neg (by simp [hc])]
    exact ih (fun c hc' => hall c (by simp [hc']))

theorem dropNumberLabel_numbered (d r : Str) (hne : d ≠ [])
    (hall : ∀ c ∈ d, c.isDigit = true) :
    dropNumberLabel (d ++ '.' :: ' ' :: r) = r := by
  obtain ⟨h1, h2⟩ := takeWhile_append_done Char.isDigit d '.' (' ' :: r) hall (by decide)
  unfold dropNumberLabel
  rw [h1, h2]
  rw [if_pos]
  · rfl
  · simp only [Bool.and_eq_true, Bool.not_eq_true']
    exact ⟨by simpa using hne, rfl⟩

theorem claimKey_numbered (d r : Str) (hne : d ≠ [])
    (hall : ∀ c ∈ d, c.isDigit = true) :
    claimKey (d ++ '.' :: ' ' :: r) = strLower r ∧
    dedupKey (d ++ '.' :: ' ' :: r) = strLower r := by
  constructor
  · unfold claimKey
    rw [dropNumberLabel_numbered d r hne hall]
  · unfold dedupKey
    rw [afterDotSpace_digits d r hall]

theorem parseNumbered_some {l d r : Str} (h : parseNumbered l = some (d, r)) :
    d ≠ [] ∧ ∀ c ∈ d, c.isDigit = true := by
  simp only [parseNumbered] at h
  split at h
  · exact absurd h (by simp)
  · rename_i hde
    split at h
    · exact absurd h (by simp)
    · rename_i c rest
      split at h
      · split at h
        · exact absurd h (by simp)
        · injection h with h'
          injection h' with h1 h2
          subst h1
          refine ⟨by simpa using hde, ?_⟩
          intro c hc
          exact List.mem_takeWhile_imp hc
      · exact absurd h (by simp)

theorem mem_numberedEntries {lines : List Str} {e : Str}
    (h : e ∈ numberedEntries lines) :
    ∃ d r, d ≠ [] ∧ (∀ c ∈ d, c.isDigit = true) ∧
      e = d ++ '.' :: ' ' :: Py.pyStrip r := by
  rw [numberedEntries, List.mem_filterMap] at h
  obtain ⟨l, _, hl⟩ := h
  rw [Option.map_eq_some'] at hl
  obtain ⟨⟨d, r⟩, hp, he⟩ := hl
  obtain ⟨hne, hall⟩ := parseNumbered_some hp
  exact ⟨d, r, hne, hall, he.symm⟩

theorem claimKey_eq_dedupKey_numbered {lines : List Str} {e : Str}
    (h : e ∈ numberedEntries lines) : claimKey e = dedupKey e := by
  obtain ⟨d, r, hne, hall, rfl⟩ := mem_numberedEntries h
  obtain ⟨h1, h2⟩ := claimKey_numbered d (Py.pyStrip r) hne hall
  rw [h1, h2]

theorem pyCharLower_eq_dot {c : Char} : pyCharLower c = '.' ↔ c = '.' := by
  constructor
  · intro h
    unfold pyCharLower at h
    split at h <;> first
      | assumption
      | exact absurd h (by decide)
  · rintro rfl
    rfl

theorem pyCharLower_eq_space {c : Char} : pyCharLower c = ' ' ↔ c = ' ' := by
  constructor
  · intro h
    unfold pyCharLower at h
    split at h <;> first
      | assumption
      | exact absurd h (by decide)
  · rintro rfl
    rfl

theorem head_strLower_space {s : Str} :
    (strLower s).head? = some ' ' ↔ s.head? = some ' ' := by
  unfold strLower
  rw [List.head?_map]
  cases s with
  | nil => simp
  | cons c rest => simpa using pyCharLower_eq_space

theorem afterDotSpace_strLower (s : Str) :
    afterDotSpace (strLower s) = (afterDotSpace s).map strLower := by
  induction s with
  | nil => rfl
  | cons c rest ih =>
    by_cases hc : c = '.' ∧ rest.head? = some ' '
    · obtain ⟨rfl, hr⟩ := hc
      have hlow : (strLower rest).head? = some ' ' := head_strLower_space.mpr hr
      rw [show strLower ('.' :: rest) = '.' :: strLower rest from rfl,
        afterDotSpace, if_pos ⟨rfl, hlow⟩, afterDotSpace, if_pos ⟨rfl, hr⟩]
      cases rest with
      | nil => simp at hr
      | cons x xs => rfl
    · have hc' : ¬(pyCharLower c = '.' ∧ (strLower rest).head? = some ' ') := by
        rintro ⟨h1, h2⟩
        exact hc ⟨pyCharLower_eq_dot.mp h1, head_strLower_space.mp h2⟩
      rw [show strLower (c :: rest) = pyCharLower c :: strLower rest from rfl,
        afterDotSpace, if_neg hc', afterDotSpace, if_neg hc]
      exact ih

theorem dedupKey_eq_of_strLower_eq {a b : Str} (h : strLower a = strLower b) :
    dedupKey a = dedupKey b := by
  unfold dedupKey
  have ha := afterDotSpace_strLower a
  have hb := afterDotSpace_strLower b
  rw [h] at ha
  rw [ha] at hb
  cases h1 : afterDotSpace a with
  | none =>
    rw [h1] at hb
    cases h2 : afterDotSpace b with
    | none => exact h
    | some t2 => rw [h2] at hb; simp at hb
  | some t1 =>
    rw [h1] at hb
    cases h2 : afterDotSpace b with
    | none => rw [h2] at hb; simp at hb
    | some t2 =>
      rw [h2] at hb
      simpa using hb

theorem dropWhile_eq_pyStrip_append (l : Str) :
    ∃ w, l.dropWhile Py.pyIsSpace = Py.pyStrip l ++ w ∧
      ∀ c ∈ w, Py.pyIsSpace c = true := by
  refine ⟨((l.dropWhile Py.pyIsSpace).reverse.takeWhile Py.pyIsSpace).reverse, ?_, ?_⟩
  · conv_lhs => rw [← List.reverse_reverse (l.dropWhile Py.pyIsSpace),
      ← List.takeWhile_append_dropWhile Py.pyIsSpace
        (l.dropWhile Py.pyIsSpace).reverse, List.reverse_append]
    rfl
  · intro c hc
    rw [List.mem_reverse] at hc
    exact List.mem_takeWhile_imp hc

theorem strHasLead_pair {a b : Char} {s : Str}
    (h : strHasLead [a, b] s = true) : ∃ t, s = a :: b :: t := by
  match s with
  | [] => exact absurd h (by simp [strHasLead])
  | [c] =>
    exfalso
    have : strHasLead [a, b] [c] = (a == c && strHasLead [b] []) := rfl
    rw [this] at h
    simp [strHasLead] at h
  | c :: c2 :: t =>
    have : strHasLead [a, b] (c :: c2 :: t)
        = (a == c && (b == c2 && true)) := rfl
    rw [this] at h
    simp only [Bool.and_true, Bool.and_eq_true, beq_iff_eq] at h
    obtain ⟨rfl, rfl⟩ := h
    exact ⟨t, rfl⟩

theorem dropNumberLabel_fallback {l : Str} (h : parseNumbered l = none) :
    dropNumberLabel (Py.pyStrip l) = Py.pyStrip l := by
  unfold dropNumberLabel
  set e := Py.pyStrip l with he
  by_cases hcond : (!(e.takeWhile Char.isDigit).isEmpty
      && strHasLead ['.', ' '] (e.dropWhile Char.isDigit)) = true
  · exfalso
    simp only [Bool.and_eq_true, Bool.not_eq_true'] at hcond
    obtain ⟨hdne, hlead⟩ := hcond
    obtain ⟨t, ht⟩ := strHasLead_pair hlead
    obtain ⟨w, hw, hwall⟩ := dropWhile_eq_pyStrip_append l
    have hsplit : e = e.takeWhile Char.isDigit ++ '.' :: ' ' :: t := by
      rw [← ht, List.takeWhile_append_dropWhile]
    have hs : l.dropWhile Py.pyIsSpace
        = e.takeWhile Char.isDigit ++ '.' :: ' ' :: (t ++ w) := by
      rw [hw, ← he]
      conv_lhs => rw [hsplit]
      simp
    have hall : ∀ c ∈ e.takeWhile Char.isDigit, c.isDigit = true :=
      fun c hc => List.mem_takeWhile_imp hc
    obtain ⟨htw, hdw⟩ := takeWhile_append_done Char.isDigit
      (e.takeWhile Char.isDigit) '.' (' ' :: (t ++ w)) hall (by decide)
    have : parseNumbered l ≠ none := by
      simp only [parseNumbered, hs, htw, hdw]
      rw [if_neg (by simpa using hdne)]
      simp [Py.pyIsSpace, List.takeWhile_cons_of_pos]
    exact this h
  · rw [if_neg (by simpa using hcond)]

theorem mem_fallbackEntries {lines : List Str} {e : Str}
    (h : e ∈ fallbackEntries lines) : ∃ l ∈ lines, e = Py.pyStrip l := by
  rw [fallbackEntries, List.mem_map] at h
  obtain ⟨l, hl, rfl⟩ := h
  exact ⟨l, List.mem_of_mem_filter hl, rfl⟩

theorem claimKey_eq_strLower_fallback {lines : List Str} {e : Str}
    (hnone : ∀ l ∈ lines, parseNumbered l = none)
    (h : e ∈ fallbackEntries lines) : claimKey e = strLower e := by
  obtain ⟨l, hl, rfl⟩ := mem_fallbackEntries h
  unfold claimKey
  rw [dropNumberLabel_fallback (hnone l hl)]

theorem rawTopics_key_agreement (text : Str) {a b : Str}
    (ha : a ∈ rawTopics text) (hb : b ∈ rawTopics text)
    (hk : claimKey a = claimKey b) : dedupKey a = dedupKey b := by
  unfold rawTopics at ha hb
  by_cases hnum : (numberedEntries (splitLines text)).isEmpty
  · rw [if_pos hnum] at ha hb
    have hnone : ∀ l ∈ splitLines text, parseNumbered l = none := by
      intro l hl
      have : numberedEntries (splitLines text) = [] := by
        simpa using hnum
      rw [numberedEntries, List.filterMap_eq_nil_iff] at this
      have := this l hl
      exact Option.map_eq_none'.mp this
    have ha' := claimKey_eq_strLower_fallback hnone ha
    have hb' := claimKey_eq_strLower_fallback hnone hb
    rw [ha', hb'] at hk
    exact dedupKey_eq_of_strLower_eq hk
  · rw [if_neg hnum] at ha hb
    rw [← claimKey_eq_dedupKey_numbered ha, ← claimKey_eq_dedupKey_numbered hb]
    exact hk

theorem dedupTopics_sublist (seen : List Str) (ts : List Str) :
    (dedupTopics seen ts).Sublist ts := by
  induction ts generalizing seen with
  | nil => simp [dedupTopics]
  | cons t ts ih =>
    by_cases hk : dedupKey t ∈ seen
    · rw [dedupTopics, if_pos hk]
      exact (ih seen).cons t
    · rw [dedupTopics, if_neg hk]
      exact (ih (dedupKey t :: seen)).cons₂ t

theorem mem_dedupTopics_key_not_seen {seen ts : List Str} {a : Str}
    (h : a ∈ dedupTopics seen ts) : dedupKey a ∉ seen := by
  induction ts generalizing seen with
  | nil => simp [dedupTopics] at h
  | cons t ts ih =>
    by_cases hk : dedupKey t ∈ seen
    · rw [dedupTopics, if_pos hk] at h
      exact ih h
    · rw [dedupTopics, if_neg hk] at h
      rcases List.mem_cons.mp h with rfl | h
      · exact hk
      · have := ih h
        intro hc
        exact this (List.mem_cons_of_mem _ hc)

theorem dedupTopics_pairwise (seen : List Str) (ts : List Str) :
    (dedupTopics seen ts).Pairwise (fun a b => dedupKey a ≠ dedupKey b) := by
  induction ts generalizing seen with
  | nil => simp [dedupTopics]
  | cons t ts ih =>
    by_cases hk : dedupKey t ∈ seen
    · rw [dedupTopics, if_pos hk]
      exact ih seen
    · rw [dedupTopics, if_neg hk]
      refine List.Pairwise.cons ?_ (ih (dedupKey t :: seen))
      intro b hb heq
      have := mem_dedupTopics_key_not_seen hb
      exact this (by rw [← heq]; exact List.mem_cons_self _ _)

theorem dedupTopics_first {seen ts : List Str} {a : Str}
    (h : a ∈ dedupTopics seen ts) :
    ∃ pre post, ts = pre ++ a :: post ∧
      ∀ b ∈ pre, dedupKey b ≠ dedupKey a := by
  induction ts generalizing seen with
  | nil => simp [dedupTopics] at h
  | cons t ts ih =>
    by_cases hk : dedupKey t ∈ seen
    · rw [dedupTopics, if_pos hk] at h
      obtain ⟨pre, post, rfl, hpre⟩ := ih h
      have hka : dedupKey a ∉ seen := mem_dedupTopics_key_not_seen h
      refine ⟨t :: pre, post, rfl, ?_⟩
      intro b hb
      rcases List.mem_cons.mp hb with rfl | hb
      · intro hc
        exact hka (hc ▸ hk)
      · exact hpre b hb
    · rw [dedupTopics, if_neg hk] at h
      rcases List.mem_cons.mp h with rfl | h
      · exact ⟨[], ts, rfl, by simp⟩
      · obtain ⟨pre, post, rfl, hpre⟩ := ih h
        have hka : dedupKey a ∉ dedupKey t :: seen :=
          mem_dedupTopics_key_not_seen h
        refine ⟨t :: pre, post, rfl, ?_⟩
        intro b hb
        rcases List.mem_cons.mp hb with rfl | hb
        · intro hc
          exact hka (by rw [hc]; exact List.mem_cons_self _ _)
        · exact hpre b hb

/-- C10.  `parse_topics` returns a duplicate-free list: no two returned
entries share the same topic text once the leading `"N. "` number label
is removed and letter case is ignored; the returned list is a sublist
(order preserved) of the parsed entries, and each returned entry is the
first parsed entry bearing its topic text. -/
theorem parse_topics_dedup_spec (text : Str) :
    (parse_topics text).Pairwise (fun a b => claimKey a ≠ claimKey b) ∧
    (parse_topics text).Sublist (rawTopics text) ∧
    ∀ a ∈ parse_topics text, ∃ pre post,
      rawTopics text = pre ++ a :: post ∧
      ∀ b ∈ pre, claimKey b ≠ claimKey a := by
  have hsub : (parse_topics text).Sublist (rawTopics text) :=
    dedupTopics_sublist [] _
  refine ⟨?_, hsub, ?_⟩
  · have hp := dedupTopics_pairwise [] (rawTopics text)
    refine hp.imp_of_mem ?_
    intro a b ha hb hne hk
    exact hne (rawTopics_key_agreement text
      (List.Sublist.mem ha hsub) (List.Sublist.mem hb hsub) hk)
  · intro a ha
    obtain ⟨pre, post, heq, hpre⟩ := dedupTopics_first ha
    refine ⟨pre, post, heq, ?_⟩
    intro b hb hk
    have hbraw : b ∈ rawTopics text := by
      rw [heq]
      exact List.mem_append_left _ hb
    have haraw : a ∈ rawTopics text := by
      rw [heq]
      exact List.mem_append_right _ (List.mem_cons_self _ _)
    exact hpre b hb (rawTopics_key_agreement text hbraw haraw hk)

/-- Witness for `parse_topics_dedup_spec`: on
`"1. Foo\n2. foo\n3. Bar"` the entry `"3. Bar"` is returned and is the
first parsed entry with topic text `bar`. -/
theorem parse_topics_dedup_spec_witness :
    ∃ pre post,
      rawTopics ("1. Foo\n2. foo\n3. Bar".toList)
        = pre ++ ("3. Bar".toList) :: post ∧
      ∀ b ∈ pre, claimKey b ≠ claimKey ("3. Bar".toList) :=
  (parse_topics_dedup_spec ("1. Foo\n2. foo\n3. Bar".toList)).2.2
    ("3. Bar".toList) (by decide)

end TopicService
